import Mathlib

/-!
Verification of the core algorithms of notebook-distill against its
natural-language specification: the hierarchical content chunker
(`src/notebook_distill/chunker.py`) and the HTML-to-Markdown converter
(`src/notebook_distill/html_converter.py`).

Python strings are modelled as `List Char`; the external token estimator
(`utils.estimate_tokens`, backed by tiktoken) and the external sentence
tokenizer (`nltk.sent_tokenize`) are parameters of the embedding, with
small concrete executable instances used in witnesses and counterexamples.
The chunker's `while` loop is embedded with an explicit fuel parameter
because (as proved below) the loop does not terminate on some inputs.
-/

/-- Python `str` is modelled as a list of characters. -/
abbrev Str := List Char

/-- Coerce a Lean string literal into the model type. -/
def str (s : String) : Str := s.data

/-- A token estimator: `estimate_tokens(text, model)` with the model fixed.
The real implementation delegates to tiktoken; the spec only promises a
nonnegative integer per text. -/
abbrev Tok := Str → Nat

/-- A sentence-boundary tokenizer: `nltk.sent_tokenize`. -/
abbrev SentTok := Str → List Str

/-- The character-length token estimator, a concrete `Tok` instance used to
evaluate the chunker on explicit inputs. -/
def strLen : Tok := fun s => s.length

/-- Python whitespace, the characters matched by `\s` and stripped by
`str.strip()` (space, tab, newline, carriage return, vertical tab, form feed). -/
def pyWs (c : Char) : Bool :=
  c == ' ' || c == '\t' || c == '\n' || c == '\r' || c == Char.ofNat 11 || c == Char.ofNat 12

/-- Python `str.strip()`. -/
def strip (s : Str) : Str :=
  ((s.dropWhile pyWs).reverse.dropWhile pyWs).reverse

/-- Truthiness test `not s.strip()` used by the section walk. -/
def isBlank (s : Str) : Bool := (strip s).isEmpty

/-- Substring test, Python's `needle in hay`. -/
def containsB (needle : Str) : Str → Bool
  | [] => needle.isEmpty
  | c :: t => needle.isPrefixOf (c :: t) || containsB needle t

/-! ## The header split: `re.split(r'(^|\n)(#+\s+.+)(\n|$)', content, flags=re.MULTILINE)` -/

/-- Backtracking for the `\s+` group of `#+\s+.+`: starting from the greedy
width and shrinking, find the largest width `w ≥ 1` such that the character
right after `w` whitespace characters of `t` exists and is not a newline
(so that `.+` can match at least one character there). -/
def findW (t : Str) : Nat → Option Nat
  | 0 => none
  | w + 1 =>
    match (t.drop (w + 1)).head? with
    | some c => if c == '\n' then findW t w else some (w + 1)
    | none => findW t w

/-- Match `#+\s+.+(\n|$)` at the start of `t`; returns the length of the
`#+\s+.+` part and of the `(\n|$)` part.  (Backtracking into `#+` is
pointless: with fewer `#`s the next character is `#`, which `\s` rejects.) -/
def matchHeaderBody (t : Str) : Option (Nat × Nat) :=
  let h := (t.takeWhile (· == '#')).length
  if h == 0 then none
  else
    let t1 := t.drop h
    match findW t1 (t1.takeWhile pyWs).length with
    | none => none
    | some w =>
      let t2 := t1.drop w
      let d := (t2.takeWhile (· != '\n')).length
      match (t2.drop d).head? with
      | some _ => some (h + w + d, 1)
      | none => some (h + w + d, 0)

/-- Match the full header pattern `(^|\n)(#+\s+.+)(\n|$)` at the start of `s`;
`bol` records whether this position is at a line start (so the zero-width `^`
alternative of the first group can apply).  Returns the three group lengths. -/
def headerMatchHere (bol : Bool) (s : Str) : Option (Nat × Nat × Nat) :=
  match (if bol then matchHeaderBody s else none) with
  | some (b, c) => some (0, b, c)
  | none =>
    match s with
    | '\n' :: t =>
      match matchHeaderBody t with
      | some (b, c) => some (1, b, c)
      | none => none
    | _ => none

/-- The scanning engine of `re.split`: walk the text left to right, emitting
the text between matches and the three captured groups of each match.
One fuel unit is spent per step and every step consumes at least one
character, so fuel `s.length` always suffices. -/
def splitHeadersAux : Nat → Bool → Str → Str → List Str
  | 0, _, acc, s => [acc.reverse ++ s]
  | _ + 1, _, acc, [] => [acc.reverse]
  | fuel + 1, bol, acc, c :: rest =>
    match headerMatchHere bol (c :: rest) with
    | some (a, b, c3) =>
      let s := c :: rest
      acc.reverse :: s.take a :: (s.drop a).take b :: (s.drop (a + b)).take c3 ::
        splitHeadersAux fuel (c3 == 1) [] (s.drop (a + b + c3))
    | none => splitHeadersAux fuel (c == '\n') (c :: acc) rest

/-- `re.split(header_pattern, content, flags=re.MULTILINE)`. -/
def splitHeaders (s : Str) : List Str := splitHeadersAux s.length true [] s

/-- `re.match(r'^#+\s+.+', x)` truthiness: does the header body pattern match
at the start of `x`? -/
def isHeaderMatch (t : Str) : Bool :=
  let h := (t.takeWhile (· == '#')).length
  h != 0 && (findW (t.drop h) ((t.drop h).takeWhile pyWs).length).isSome

/-! ## Fenced code-block extraction: `re.sub(r'```[\s\S]*?```', placeholder, section)` -/

/-- The fence marker. -/
def fenceStr : Str := str "```"

/-- The positional placeholder `__CODE_BLOCK_{n}__` substituted for the n-th
extracted code block. -/
def placeholder (n : Nat) : Str := str "__CODE_BLOCK_" ++ (Nat.repr n).data ++ str "__"

/-- Index of the first occurrence of a closing fence in `t`
(the non-greedy `[\s\S]*?` stops at the earliest closing ```` ``` ````). -/
def findClose : Str → Option Nat
  | [] => none
  | c :: t => if fenceStr.isPrefixOf (c :: t) then some 0 else (findClose t).map (· + 1)

/-- Scanning engine of the code-block substitution: at each position, if a
complete fenced block starts here, replace it by the next placeholder and
record it; otherwise (including an opening fence with no closing fence,
where the regex match fails and the engine moves on) copy one character.
Fuel `s.length` always suffices. -/
def extractAux : Nat → Nat → Str → List Str → Str → Str × List Str
  | 0, _, acc, blocks, s => (acc.reverse ++ s, blocks.reverse)
  | _ + 1, _, acc, blocks, [] => (acc.reverse, blocks.reverse)
  | fuel + 1, n, acc, blocks, c :: rest =>
    if fenceStr.isPrefixOf (c :: rest) then
      match findClose ((c :: rest).drop 3) with
      | some k =>
        let blk := (c :: rest).take (k + 6)
        extractAux fuel (n + 1) ((placeholder n).reverse ++ acc) (blk :: blocks)
          ((c :: rest).drop (k + 6))
      | none => extractAux fuel n (c :: acc) blocks rest
    else extractAux fuel n (c :: acc) blocks rest

/-- Replace each fenced code block of `s` with a positional placeholder,
returning the rewritten text and the extracted blocks in order. -/
def extractCodeBlocks (s : Str) : Str × List Str := extractAux s.length 0 [] [] s

/-! ## Paragraph split: `re.split(r'\n\n+', text)` -/

/-- Split on runs of two or more newlines, dropping the separators.
Fuel `s.length` always suffices. -/
def splitParasAux : Nat → Str → Str → List Str
  | 0, acc, s => [acc.reverse ++ s]
  | _ + 1, acc, [] => [acc.reverse]
  | fuel + 1, acc, '\n' :: '\n' :: rest =>
    acc.reverse :: splitParasAux fuel [] (rest.dropWhile (· == '\n'))
  | fuel + 1, acc, c :: rest => splitParasAux fuel (c :: acc) rest

/-- `re.split(r'\n\n+', text)`. -/
def splitParas (s : Str) : List Str := splitParasAux s.length [] s

/-! ## Placeholder restoration: `para.replace(f"__CODE_BLOCK_{i}__", block)` -/

/-- Python `str.replace(old, new)`: replace every non-overlapping occurrence,
left to right, scanning past each replacement.  (`old` is never empty at the
call sites; the guard keeps the empty case from looping.) -/
def replaceAllAux : Nat → Str → Str → Str → Str → Str
  | 0, acc, _, _, s => acc.reverse ++ s
  | _ + 1, acc, _, _, [] => acc.reverse
  | fuel + 1, acc, old, new, c :: rest =>
    if !old.isEmpty && old.isPrefixOf (c :: rest) then
      replaceAllAux fuel (new.reverse ++ acc) old new ((c :: rest).drop old.length)
    else replaceAllAux fuel (c :: acc) old new rest

/-- Python `s.replace(old, new)`. -/
def replaceAll (s old new : Str) : Str := replaceAllAux s.length [] old new s

/-- `for i, block in enumerate(code_blocks): para = para.replace(f"__CODE_BLOCK_{i}__", block)` -/
def restoreBlocks (blocks : List Str) (para : Str) : Str :=
  blocks.enum.foldl (fun p ib => replaceAll p (placeholder ib.1) ib.2) para

/-- A concrete executable `SentTok` instance standing in for
`nltk.sent_tokenize` in witnesses and counterexamples: split after a period
followed by a space, dropping the space — exactly what nltk returns on the
simple inputs used below. -/
def sentSplitAux : Nat → Str → Str → List Str
  | 0, acc, s => [acc.reverse ++ s]
  | _ + 1, acc, [] => [acc.reverse]
  | fuel + 1, acc, '.' :: ' ' :: rest => (acc.reverse ++ ['.']) :: sentSplitAux fuel [] rest
  | fuel + 1, acc, c :: rest => sentSplitAux fuel (c :: acc) rest

/-- Concrete sentence tokenizer used for explicit evaluations. -/
def sentSplit : SentTok := fun s => sentSplitAux s.length [] s

/-! ## The chunk engine: `chunk_content` (chunker.py lines 15-139)

The loop state mirrors the code's `chunks`, `current_chunk` and
`current_size`.  To make the code's own size bookkeeping visible to the
theorems, each accumulated part and each emitted chunk carries the token
count the code recorded for it (`current_size` at the moment of emission);
`chunk_content` itself projects the texts out. -/

/-- Loop state: `chunks`, `current_chunk` (as parts, each with the token
count the code added to `current_size` for it), and `current_size`. -/
structure ChunkSt where
  chunks : List (Str × Nat)
  cur : List (Str × Nat)
  size : Nat
deriving DecidableEq, Repr

/-- The chunk text of a flush: `"".join(current_chunk)`. -/
def curText (st : ChunkSt) : Str := (st.cur.map Prod.fst).flatten

/-- `chunks.append("".join(current_chunk)); current_chunk = []; current_size = 0`,
guarded by `if current_chunk:`. -/
def flushChunk (st : ChunkSt) : ChunkSt :=
  if st.cur.isEmpty then st
  else { chunks := st.chunks ++ [(curText st, st.size)], cur := [], size := 0 }

/-- `if current_size + x > chunk_size and current_chunk:` flush. -/
def overflowFlush (budget x : Nat) (st : ChunkSt) : ChunkSt :=
  if budget < st.size + x && !st.cur.isEmpty then
    { chunks := st.chunks ++ [(curText st, st.size)], cur := [], size := 0 }
  else st

/-- Body of `for sent in sentences:` (chunker.py lines 114-122):
flush on overflow, then append `sent + " "` recording `sent_size`. -/
def processSent (tokens : Tok) (budget : Nat) (st : ChunkSt) (sent : Str) : ChunkSt :=
  let ssize := tokens sent
  let st := overflowFlush budget ssize st
  { st with cur := st.cur ++ [(sent ++ [' '], ssize)], size := st.size + ssize }

/-- Body of `for para in paragraphs:` (chunker.py lines 87-125): restore the
code blocks, flush on overflow; an oversized code-bearing paragraph is
emitted as its own chunk, an oversized plain paragraph is split into
sentences, and a fitting paragraph is appended as `para + "\n\n"`. -/
def processPara (tokens : Tok) (stk : SentTok) (budget : Nat) (blocks : List Str)
    (st : ChunkSt) (para0 : Str) : ChunkSt :=
  let para := restoreBlocks blocks para0
  let psize := tokens para
  let st := overflowFlush budget psize st
  if budget < psize then
    if containsB fenceStr para then
      let st := flushChunk st
      { chunks := st.chunks ++ [(para, psize)], cur := [], size := 0 }
    else (stk para).foldl (processSent tokens budget) st
  else { st with cur := st.cur ++ [(para ++ str "\n\n", psize)], size := st.size + psize }

/-- Process one assembled section (chunker.py lines 60-128) and return the
new state together with the next value of the loop index `i`.  In the
oversized branch the restore loop `for i, block in enumerate(code_blocks)`
runs once per paragraph and overwrites the `while` loop's `i`: when any code
block was extracted the index left behind is `len(code_blocks) - 1`, not the
advanced section index. -/
def processSection (tokens : Tok) (stk : SentTok) (budget : Nat)
    (st : ChunkSt) (sec : Str) (iNext : Nat) : ChunkSt × Nat :=
  let ssize := tokens sec
  let st := overflowFlush budget ssize st
  if budget < ssize then
    let ph := extractCodeBlocks sec
    let paras := splitParas ph.1
    let st := paras.foldl (processPara tokens stk budget ph.2) st
    (st, if ph.2.isEmpty then iNext else ph.2.length - 1)
  else ({ st with cur := st.cur ++ [(sec, ssize)], size := st.size + ssize }, iNext)

/-- Final `if current_chunk: chunks.append("".join(current_chunk))`. -/
def finalChunks (st : ChunkSt) : List (Str × Nat) :=
  if st.cur.isEmpty then st.chunks else st.chunks ++ [(curText st, st.size)]

/-- The `while i < len(sections):` walk (chunker.py lines 44-128), with one
fuel unit per iteration; `none` means the fuel ran out while the loop still
had iterations to do, so `(∀ fuel, ... = none)` is non-termination. -/
def sectionLoop (tokens : Tok) (stk : SentTok) (sections : List Str) (budget : Nat) :
    Nat → Nat → ChunkSt → Option (List (Str × Nat))
  | 0, i, st => if i < sections.length then none else some (finalChunks st)
  | fuel + 1, i, st =>
    if i < sections.length then
      let sec := sections.getD i []
      if isBlank sec then sectionLoop tokens stk sections budget fuel (i + 1) st
      else
        let step :=
          if i + 2 < sections.length && isHeaderMatch (strip (sections.getD (i + 1) [])) then
            processSection tokens stk budget st
              (sec ++ sections.getD (i + 1) [] ++ sections.getD (i + 2) []) (i + 3)
          else processSection tokens stk budget st sec (i + 1)
        sectionLoop tokens stk sections budget fuel step.2 step.1
    else some (finalChunks st)

/-- `chunk_content(content, chunk_size, model)` with the code's size
bookkeeping kept alongside each chunk. -/
def chunk_content_sized (tokens : Tok) (stk : SentTok) (content : Str)
    (budget fuel : Nat) : Option (List (Str × Nat)) :=
  if tokens content ≤ budget then some [(content, tokens content)]
  else sectionLoop tokens stk (splitHeaders content) budget fuel 0 ⟨[], [], 0⟩

/-- `chunk_content(content, chunk_size, model)` (chunker.py lines 15-139). -/
def chunk_content (tokens : Tok) (stk : SentTok) (content : Str)
    (budget fuel : Nat) : Option (List Str) :=
  (chunk_content_sized tokens stk content budget fuel).map (List.map Prod.fst)

/-- The logical sections the `while` loop walks when no section overflows:
skip pieces that strip to nothing, and join a piece with the following two
when the piece after it looks like a header (mirroring lines 45-58).
The index advances every step, so fuel `sections.length - i` suffices. -/
def assembleFromAux : Nat → List Str → Nat → List Str
  | 0, _, _ => []
  | fuel + 1, sections, i =>
    if i < sections.length then
      if isBlank (sections.getD i []) then assembleFromAux fuel sections (i + 1)
      else if i + 2 < sections.length && isHeaderMatch (strip (sections.getD (i + 1) [])) then
        (sections.getD i [] ++ sections.getD (i + 1) [] ++ sections.getD (i + 2) []) ::
          assembleFromAux fuel sections (i + 3)
      else sections.getD i [] :: assembleFromAux fuel sections (i + 1)
    else []

/-- The assembled sections the walk visits from index `i` on. -/
def assembleFrom (sections : List Str) (i : Nat) : List Str :=
  assembleFromAux (sections.length - i) sections i

/-- The assembled sections of a document. -/
def sectionsOf (content : Str) : List Str := assembleFrom (splitHeaders content) 0

/-! ## The convenience wrapper: `smart_chunk_notebook` (chunker.py lines 141-183)

Metadata formatting (`format_metadata_as_markdown`) is an excluded
collaborator; the wrapper is parametrised by its output `metadata_md`.
The Python `max(chunk_size - metadata_size - 50, chunk_size // 2)` computes
over ints; since a negative left argument always loses the `max` against the
nonnegative `chunk_size // 2`, truncated `Nat` subtraction gives the same
value. -/

/-- The separator of `f"{metadata_md}\n\n---\n\n{chunk}"`. -/
def sepStr : Str := str "\n\n---\n\n"

/-- `smart_chunk_notebook(notebook_content, metadata, chunk_size, model,
include_metadata_in_each_chunk)`. -/
def smart_chunk_notebook (tokens : Tok) (stk : SentTok)
    (notebook_content metadata_md : Str) (chunk_size : Nat)
    (include_metadata_in_each_chunk : Bool) (fuel : Nat) : Option (List Str) :=
  let metadata_size := tokens metadata_md
  let effective_chunk_size :=
    if include_metadata_in_each_chunk then
      max (chunk_size - metadata_size - 50) (chunk_size / 2)
    else chunk_size
  match chunk_content tokens stk notebook_content effective_chunk_size fuel with
  | none => none
  | some content_chunks =>
    if include_metadata_in_each_chunk && !metadata_md.isEmpty then
      some (content_chunks.map fun c => metadata_md ++ sepStr ++ c)
    else
      match content_chunks, metadata_md.isEmpty with
      | c0 :: rest, false => some ((metadata_md ++ sepStr ++ c0) :: rest)
      | cs, _ => some cs

/-- Modelled from the spec: the wrapper as the claim describes it, with the
effective budget `max(budget − metadata_tokens, budget / 2)` — reserving
exactly the metadata's own token cost and nothing else.  Used only to
compare against `smart_chunk_notebook` as implemented. -/
def smart_chunk_claimed (tokens : Tok) (stk : SentTok)
    (notebook_content metadata_md : Str) (chunk_size : Nat)
    (include_metadata_in_each_chunk : Bool) (fuel : Nat) : Option (List Str) :=
  let metadata_size := tokens metadata_md
  let effective_chunk_size :=
    if include_metadata_in_each_chunk then
      max (chunk_size - metadata_size) (chunk_size / 2)
    else chunk_size
  match chunk_content tokens stk notebook_content effective_chunk_size fuel with
  | none => none
  | some content_chunks =>
    if include_metadata_in_each_chunk && !metadata_md.isEmpty then
      some (content_chunks.map fun c => metadata_md ++ sepStr ++ c)
    else
      match content_chunks, metadata_md.isEmpty with
      | c0 :: rest, false => some ((metadata_md ++ sepStr ++ c0) :: rest)
      | cs, _ => some cs

/-! ## The HTML-to-Markdown converter (html_converter.py)

The converter subclasses `html.parser.HTMLParser`; the parser (an external
collaborator) turns raw HTML into a stream of start-tag, end-tag and text
events delivered to the three handlers.  The embedding models that event
stream directly and folds the handlers over it. -/

/-- `HTML_MARKDOWN_CONVERTIBLE_TAGS` (constants.py lines 33-37). -/
def HTML_MARKDOWN_CONVERTIBLE_TAGS : List Str :=
  ["p", "h1", "h2", "h3", "h4", "h5", "h6",
   "strong", "em", "b", "i", "a", "ul", "ol", "li",
   "table", "tr", "td", "th", "thead", "tbody"].map str

/-- `HTML_CONTENT_NOTE` (constants.py line 46). -/
def HTML_CONTENT_NOTE : Str :=
  str "Note: This cell contained complex HTML content that was simplified for LLM compatibility."

/-- A tag event delivered by the HTML parser. -/
inductive HEvent where
  | startTag (tag : Str) (attrs : List (Str × Str))
  | endTag (tag : Str)
  | textData (data : Str)
deriving DecidableEq, Repr

/-- The converter's mutable state (`HTMLToMarkdownConverter.__init__`).
`inside_tags` is kept most-recent-first, so Python's `inside_tags[-1]` is the
head and `append`/`pop` are cons/tail. -/
structure ConvState where
  result : List Str
  in_paragraph : Bool
  in_heading : Bool
  heading_level : Nat
  in_list : Bool
  list_type : Option Str
  list_items : List Str
  in_table : Bool
  in_table_row : Bool
  in_table_header : Bool
  current_table : List (List Str)
  current_row : List Str
  link_href : Str
  in_link : Bool
  complex_html_detected : Bool
  inside_tags : List Str
  buffer : List Str
deriving DecidableEq, Repr

/-- The fresh converter state. -/
def initState : ConvState :=
  { result := [], in_paragraph := false, in_heading := false, heading_level := 0,
    in_list := false, list_type := none, list_items := [], in_table := false,
    in_table_row := false, in_table_header := false, current_table := [],
    current_row := [], link_href := [], in_link := false,
    complex_html_detected := false, inside_tags := [], buffer := [] }

/-- `dict(attrs).get("href", "")`: later bindings shadow earlier ones. -/
def dictGet (attrs : List (Str × Str)) (key : Str) : Str :=
  match attrs.reverse.find? (fun kv => kv.1 == key) with
  | some kv => kv.2
  | none => []

/-- The heading tags. -/
def headingTags : List Str := ["h1", "h2", "h3", "h4", "h5", "h6"].map str

/-- `int(tag[1])` for a heading tag. -/
def headingLevel (tag : Str) : Nat :=
  match tag with
  | _ :: d :: _ => d.toNat - 48
  | _ => 0

/-- The tag-dispatch part of `handle_starttag` (html_converter.py
lines 43-77), applied after the stack push and the complex-flag update. -/
def startEmit (st : ConvState) (tag : Str) (attrs : List (Str × Str)) : ConvState :=
  if tag == str "p" then
    { st with in_paragraph := true, result := st.result ++ [str "\n\n"] }
  else if headingTags.contains tag then
    { st with in_heading := true, heading_level := headingLevel tag,
              result := st.result ++ [['\n'] ++ List.replicate (headingLevel tag) '#' ++ [' ']] }
  else if tag == str "strong" || tag == str "b" then
    { st with result := st.result ++ [str "**"] }
  else if tag == str "em" || tag == str "i" then
    { st with result := st.result ++ [str "*"] }
  else if tag == str "a" then
    { st with in_link := true, link_href := dictGet attrs (str "href"),
              result := st.result ++ [str "["] }
  else if tag == str "code" then { st with result := st.result ++ [['`']] }
  else if tag == str "pre" then { st with result := st.result ++ [str "\n```\n"] }
  else if tag == str "br" then { st with result := st.result ++ [str "\n"] }
  else if tag == str "ul" || tag == str "ol" then
    { st with in_list := true, list_type := some tag, list_items := [] }
  else if tag == str "li" then { st with buffer := [] }
  else if tag == str "table" then { st with in_table := true, current_table := [] }
  else if tag == str "tr" then { st with in_table_row := true, current_row := [] }
  else if tag == str "th" || tag == str "thead" then { st with in_table_header := true }
  else st

/-- `handle_starttag` (html_converter.py lines 34-77): push the tag, flag
complex HTML for tags outside the allow-list, then dispatch. -/
def handle_starttag (st0 : ConvState) (tag : Str) (attrs : List (Str × Str)) : ConvState :=
  let st1 := { st0 with inside_tags := tag :: st0.inside_tags }
  let st := if HTML_MARKDOWN_CONVERTIBLE_TAGS.contains tag then st1
            else { st1 with complex_html_detected := true }
  startEmit st tag attrs

/-- One markdown pipe row: `"| " + " | ".join(cells) + " |"`. -/
def pipeRow (cells : List Str) : Str :=
  str "| " ++ List.intercalate (str " | ") cells ++ str " |"

/-- The `table_md` lines built on `</table>` (html_converter.py lines 113-126):
header row, separator row, and each remaining row right-padded with empty
cells up to the header's width — Python's `row + [""] * (len(headers) - len(row))`,
whose `[""] * negative` is empty, exactly like truncated `Nat` subtraction. -/
def tableMd (current_table : List (List Str)) : List Str :=
  match current_table with
  | [] => []
  | headers :: rows =>
    if (headers :: rows).any (fun r => !r.isEmpty) then
      pipeRow headers ::
      pipeRow (List.replicate headers.length (str "---")) ::
      rows.map (fun row => pipeRow (row ++ List.replicate (headers.length - row.length) []))
    else []

/-- The stack pop of `handle_endtag` (html_converter.py lines 81-82):
pop only when the closing tag matches the innermost open tag. -/
def popTag (st0 : ConvState) (tag : Str) : ConvState :=
  match st0.inside_tags with
  | t :: rest => if t == tag then { st0 with inside_tags := rest } else st0
  | [] => st0

/-- The tag-dispatch part of `handle_endtag` (html_converter.py
lines 84-138), applied after the stack pop. -/
def endEmit (st : ConvState) (tag : Str) : ConvState :=
  if tag == str "p" then
    { st with in_paragraph := false, result := st.result ++ [str "\n"] }
  else if headingTags.contains tag then
    { st with in_heading := false, result := st.result ++ [str "\n"] }
  else if tag == str "strong" || tag == str "b" then
    { st with result := st.result ++ [str "**"] }
  else if tag == str "em" || tag == str "i" then
    { st with result := st.result ++ [str "*"] }
  else if tag == str "a" then
    { st with in_link := false, result := st.result ++ [str "](" ++ st.link_href ++ str ")"] }
  else if tag == str "code" then { st with result := st.result ++ [['`']] }
  else if tag == str "pre" then { st with result := st.result ++ [str "\n```\n"] }
  else if tag == str "ul" || tag == str "ol" then
    let pfx := if tag == str "ol" then str "1. " else str "- "
    { st with result := (st.result ++ st.list_items.map (fun item => ['\n'] ++ pfx ++ item)) ++ [str "\n"],
              in_list := false, list_type := none, list_items := [] }
  else if tag == str "li" then
    { st with list_items := st.list_items ++ [st.buffer.flatten] }
  else if tag == str "table" then
    if !st.current_table.isEmpty then
      { st with
          result := st.result ++ [['\n'] ++ List.intercalate ['\n'] (tableMd st.current_table) ++ ['\n']],
          in_table := false,
          current_table := [] }
    else { st with in_table := false, current_table := [] }
  else if tag == str "tr" then
    if !st.current_row.isEmpty then
      { st with
          current_table := st.current_table ++ [st.current_row],
          in_table_row := false,
          current_row := [] }
    else { st with in_table_row := false, current_row := [] }
  else if tag == str "th" || tag == str "thead" then
    { st with in_table_header := false }
  else st

/-- `handle_endtag` (html_converter.py lines 79-138): pop, then dispatch. -/
def handle_endtag (st0 : ConvState) (tag : Str) : ConvState :=
  endEmit (popTag st0 tag) tag

/-- `handle_data` (html_converter.py lines 140-147). -/
def handle_data (st : ConvState) (data : Str) : ConvState :=
  if st.in_list && st.inside_tags.head? == some (str "li") then
    { st with buffer := st.buffer ++ [data] }
  else if st.in_table_row && !(strip data).isEmpty then
    { st with current_row := st.current_row ++ [strip data] }
  else { st with result := st.result ++ [data] }

/-- Dispatch one parser event to its handler. -/
def stepEvent (st : ConvState) : HEvent → ConvState
  | .startTag tag attrs => handle_starttag st tag attrs
  | .endTag tag => handle_endtag st tag
  | .textData d => handle_data st d

/-- `re.sub(r'\n\s*\n\s*\n', '\n\n', markdown)`: at the earliest newline
whose maximal whitespace run holds at least three newlines, the greedy match
extends through the last newline of that run and is replaced by exactly two
newlines; scanning resumes after the match. -/
def collapseAux : Nat → Str → Str → Str
  | 0, acc, s => acc.reverse ++ s
  | _ + 1, acc, [] => acc.reverse
  | fuel + 1, acc, c :: rest =>
    if c == '\n' then
      let run := (c :: rest).takeWhile pyWs
      if 3 ≤ (run.filter (· == '\n')).length then
        let m := run.length - (run.reverse.takeWhile (fun d => d != '\n')).length
        collapseAux fuel ('\n' :: '\n' :: acc) ((c :: rest).drop m)
      else collapseAux fuel (c :: acc) rest
    else collapseAux fuel (c :: acc) rest

/-- The whitespace clean-up applied by `convert`. -/
def collapseNewlines (s : Str) : Str := collapseAux s.length [] s

/-- `HTMLToMarkdownConverter.convert` (html_converter.py lines 149-171),
taking the parser's event stream for the given html fragment. -/
def convertEvents (evs : List HEvent) : Str × Bool :=
  let st := { initState with result := [], complex_html_detected := false }
  let st := evs.foldl stepEvent st
  let markdown := collapseNewlines st.result.flatten
  (if st.complex_html_detected then markdown ++ str "\n\n*" ++ HTML_CONTENT_NOTE ++ str "*\n"
   else markdown,
   st.complex_html_detected)

/-- The fallback text `f"\n\n*HTML content (conversion error: {str(e)})*\n"`. -/
def conversionError (e : Str) : Str :=
  str "\n\n*HTML content (conversion error: " ++ e ++ str ")*\n"

/-- `convert_html_to_markdown` (html_converter.py lines 173-188): the
`try`/`except` wrapper around the converter.  The converter body's outcome —
either the converted pair or a raised exception's message — is modelled as
an `Except` value; the `except` arm returns the fallback note with the
complex flag set. -/
def convert_html_to_markdown (run : Except Str (Str × Bool)) : Str × Bool :=
  match run with
  | .ok r => r
  | .error e => (conversionError e, true)

/-- Modelled from the spec: the allow-list as §4.2's per-tag table lists it
(p, h1–h6, strong/b, em/i, a, code, pre, br, ul/ol, li, table, tr, th/thead).
Used only to compare with `HTML_MARKDOWN_CONVERTIBLE_TAGS`. -/
def spec42Tags : List Str :=
  ["p", "h1", "h2", "h3", "h4", "h5", "h6", "strong", "b", "em", "i",
   "a", "code", "pre", "br", "ul", "ol", "li", "table", "tr", "th", "thead"].map str

/-! ## Derived notions and concrete instances used by the theorems -/

/-- All text accumulated in a state, emitted chunks then the open buffer. -/
def joinedAll (st : ChunkSt) : Str := (st.chunks.map Prod.fst).flatten ++ curText st

/-- An oversized indivisible part as the chunker emits it: either a single
sentence (stored as `sent + " "`, its recorded size the sentence's own token
count) or a code-bearing paragraph, in both cases with recorded size above
the budget. -/
def GoodPart (tokens : Tok) (budget : Nat) (p : Str × Nat) : Prop :=
  budget < p.2 ∧
    ((∃ t, p.1 = t ++ [' '] ∧ p.2 = tokens t) ∨
     (containsB fenceStr p.1 = true ∧ p.2 = tokens p.1))

/-- A chunk is within budget by the code's bookkeeping, or it is an
oversized indivisible singleton. -/
def GoodChunk (tokens : Tok) (budget : Nat) (p : Str × Nat) : Prop :=
  p.2 ≤ budget ∨ GoodPart tokens budget p

/-- Loop invariant: `current_size` is the sum of the recorded part sizes,
the open buffer is within budget unless it is a single oversized part, and
every emitted chunk is `GoodChunk`. -/
def ChunkInv (tokens : Tok) (budget : Nat) (st : ChunkSt) : Prop :=
  st.size = (st.cur.map Prod.snd).sum ∧
  (st.size ≤ budget ∨ ∃ p, st.cur = [p] ∧ GoodPart tokens budget p) ∧
  ∀ q ∈ st.chunks, GoodChunk tokens budget q

/-- `n` occurs contiguously inside `h`. -/
def Infx (n h : Str) : Prop := ∃ a b, h = a ++ n ++ b

/-- A document that is one oversized fenced code block. -/
def codeBlockDoc : Str := str "```\nc\n```"

/-- Event stream of `<code>x</code>`. -/
def codeOnlyEvents : List HEvent :=
  [.startTag (str "code") [], .textData (str "x"), .endTag (str "code")]

/-- Event stream of `<ul><li><b>` — an open `li` whose innermost open tag
is `b`. -/
def nestedLiPre : List HEvent :=
  [.startTag (str "ul") [], .startTag (str "li") [], .startTag (str "b") []]

/-- `nestedLiPre` followed by a text event. -/
def nestedLiEvents : List HEvent := nestedLiPre ++ [.textData (str "x")]

/-- A state inside an `li` whose innermost open tag is `li`. -/
def liState : ConvState := { initState with in_list := true, inside_tags := [str "li"] }

/-! # Theorems -/

/-! ## C5: the fast path -/

/-- C5: for every content, budget and token estimator with
`tokens(content) ≤ budget`, `chunk_content` returns exactly `[content]`
(chunker.py lines 29-33), for any fuel. -/
theorem chunk_content_fast_path (tokens : Tok) (stk : SentTok) (content : Str)
    (budget fuel : Nat) (h : tokens content ≤ budget) :
    chunk_content tokens stk content budget fuel = some [content] := by
  simp [chunk_content, chunk_content_sized, if_pos h]

/-- Witness for C5 at a concrete input. -/
theorem chunk_content_fast_path_w :
    strLen (str "ab") ≤ 5 ∧ chunk_content strLen sentSplit (str "ab") 5 1 = some [str "ab"] :=
  ⟨by decide, chunk_content_fast_path strLen sentSplit (str "ab") 5 1 (by decide)⟩

/-! ## C4: termination -/

/-- On a document that is a single oversized code-bearing section, every
iteration of the section walk ends with the restore loop
(`for i, block in enumerate(code_blocks)`) overwriting the walk's index `i`
with `len(code_blocks) - 1 = 0`, so the walk re-enters the same iteration
with one more copy of the block appended to `chunks`; no fuel suffices. -/
theorem sectionLoop_code_cycle :
    ∀ fuel chunks0,
      sectionLoop strLen sentSplit [codeBlockDoc] 1 fuel 0 ⟨chunks0, [], 0⟩ = none := by
  intro fuel
  induction fuel with
  | zero => intro chunks0; rfl
  | succ n ih =>
    intro chunks0
    have step : sectionLoop strLen sentSplit [codeBlockDoc] 1 (n + 1) 0 ⟨chunks0, [], 0⟩ =
        sectionLoop strLen sentSplit [codeBlockDoc] 1 n 0
          ⟨chunks0 ++ [(codeBlockDoc, 9)], [], 0⟩ := rfl
    rw [step]
    exact ih (chunks0 ++ [(codeBlockDoc, 9)])

/-- C4 (code bug): `chunk_content` does not terminate on every finite input.
On the single-code-block document with budget 1 the section walk never
finishes: the model returns `none` for every fuel value because the Python
restore loop reuses the `while` loop's index variable `i`, resetting it to
`len(code_blocks) - 1` and re-processing the same oversized section forever. -/
theorem chunk_content_diverges_on_code_block :
    ∀ fuel, chunk_content strLen sentSplit codeBlockDoc 1 fuel = none := by
  intro fuel
  have hsz : chunk_content_sized strLen sentSplit codeBlockDoc 1 fuel =
      sectionLoop strLen sentSplit [codeBlockDoc] 1 fuel 0 ⟨[], [], 0⟩ := by
    show (if strLen codeBlockDoc ≤ 1 then _ else _) = _
    rw [if_neg (by decide)]
    rfl
  show (chunk_content_sized strLen sentSplit codeBlockDoc 1 fuel).map (List.map Prod.fst) = none
  rw [hsz, sectionLoop_code_cycle fuel []]
  rfl

/-! ## C1: reconstruction -/

/-- C1 counterexample: on `"# A\nB"` with budget 3 no chunk exceeds the
budget (so no oversized exception occurred), yet the concatenation of the
returned chunks is `"# AB"`, not the original content: the newline pieces
produced by the header split are dropped by the walk's blank-piece skip. -/
theorem chunk_reconstruction_cex :
    chunk_content strLen sentSplit (str "# A\nB") 3 9 = some [str "# A", str "B"]
    ∧ (∀ c ∈ [str "# A", str "B"], strLen c ≤ 3)
    ∧ [str "# A", str "B"].flatten ≠ str "# A\nB" := by decide

/-- `assembleFromAux` does not depend on the fuel once it is sufficient. -/
theorem assembleFromAux_congr :
    ∀ f1 f2 sections i, sections.length - i ≤ f1 → sections.length - i ≤ f2 →
      assembleFromAux f1 sections i = assembleFromAux f2 sections i := by
  intro f1
  induction f1 with
  | zero =>
    intro f2 sections i h1 h2
    have hi : ¬ i < sections.length := by omega
    cases f2 with
    | zero => rfl
    | succ m => simp [assembleFromAux, if_neg hi]
  | succ n ih =>
    intro f2 sections i h1 h2
    cases f2 with
    | zero =>
      have hi : ¬ i < sections.length := by omega
      simp [assembleFromAux, if_neg hi]
    | succ m =>
      by_cases hi : i < sections.length
      · simp only [assembleFromAux, if_pos hi]
        rw [ih m sections (i + 1) (by omega) (by omega),
            ih m sections (i + 3) (by omega) (by omega)]
      · simp [assembleFromAux, if_neg hi]

/-- One-step unfolding of `assembleFrom`. -/
theorem assembleFrom_eq (sections : List Str) (i : Nat) :
    assembleFrom sections i =
      if i < sections.length then
        if isBlank (sections.getD i []) then assembleFrom sections (i + 1)
        else if i + 2 < sections.length && isHeaderMatch (strip (sections.getD (i + 1) [])) then
          (sections.getD i [] ++ sections.getD (i + 1) [] ++ sections.getD (i + 2) []) ::
            assembleFrom sections (i + 3)
        else sections.getD i [] :: assembleFrom sections (i + 1)
      else []
  := by
  unfold assembleFrom
  by_cases hi : i < sections.length
  · have hlen : sections.length - i = (sections.length - i - 1) + 1 := by omega
    rw [hlen]
    simp only [assembleFromAux, if_pos hi]
    rw [assembleFromAux_congr (sections.length - i - 1) (sections.length - (i + 1))
          sections (i + 1) (by omega) (by omega),
        assembleFromAux_congr (sections.length - i - 1) (sections.length - (i + 3))
          sections (i + 3) (by omega) (by omega)]
  · cases hlen : sections.length - i with
    | zero => simp [assembleFromAux, if_neg hi]
    | succ m => simp [assembleFromAux, if_neg hi]

/-- The overflow flush moves buffered text into `chunks` but never changes
the total accumulated text. -/
theorem joinedAll_overflowFlush (budget x : Nat) (st : ChunkSt) :
    joinedAll (overflowFlush budget x st) = joinedAll st := by
  unfold overflowFlush
  split
  · simp [joinedAll, curText]
  · rfl

/-- Processing a section that fits the budget takes the plain accumulate
branch. -/
theorem processSection_fits (tokens : Tok) (stk : SentTok) (budget : Nat)
    (st : ChunkSt) (sec : Str) (iNext : Nat) (h : tokens sec ≤ budget) :
    processSection tokens stk budget st sec iNext =
      ({ overflowFlush budget (tokens sec) st with
          cur := (overflowFlush budget (tokens sec) st).cur ++ [(sec, tokens sec)],
          size := (overflowFlush budget (tokens sec) st).size + tokens sec }, iNext) := by
  simp only [processSection]
  rw [if_neg (not_lt.mpr h)]

/-- Processing a fitting section appends exactly the section's text. -/
theorem processSection_fits_join (tokens : Tok) (stk : SentTok) (budget : Nat)
    (st : ChunkSt) (sec : Str) (iNext : Nat) (h : tokens sec ≤ budget) :
    joinedAll (processSection tokens stk budget st sec iNext).1 = joinedAll st ++ sec := by
  rw [processSection_fits tokens stk budget st sec iNext h]
  rw [← joinedAll_overflowFlush budget (tokens sec) st]
  generalize overflowFlush budget (tokens sec) st = st'
  simp [joinedAll, curText, List.append_assoc]

/-- The final flush emits exactly the accumulated text. -/
theorem finalChunks_join (st : ChunkSt) :
    ((finalChunks st).map Prod.fst).flatten = joinedAll st := by
  obtain ⟨chunks, cur, size⟩ := st
  cases cur <;> simp [finalChunks, joinedAll, curText]

/-- When every assembled section from index `i` on fits the budget, the walk
terminates within `len(sections) - i` iterations and the concatenation of
everything it has produced equals the text already accumulated plus the
concatenation of those sections. -/
theorem sectionLoop_join (tokens : Tok) (stk : SentTok) (sections : List Str) (budget : Nat) :
    ∀ fuel i st,
      (∀ s ∈ assembleFrom sections i, tokens s ≤ budget) →
      sections.length - i ≤ fuel →
      ∃ out, sectionLoop tokens stk sections budget fuel i st = some out ∧
        (out.map Prod.fst).flatten = joinedAll st ++ (assembleFrom sections i).flatten := by
  intro fuel
  induction fuel with
  | zero =>
    intro i st hfit hfuel
    have hi : ¬ i < sections.length := by omega
    refine ⟨finalChunks st, ?_, ?_⟩
    · simp [sectionLoop, if_neg hi]
    · rw [finalChunks_join, assembleFrom_eq, if_neg hi]
      simp
  | succ n ih =>
    intro i st hfit hfuel
    by_cases hi : i < sections.length
    · by_cases hblank : isBlank (sections.getD i []) = true
      · have hA : assembleFrom sections i = assembleFrom sections (i + 1) := by
          rw [assembleFrom_eq, if_pos hi, if_pos hblank]
        have hL : sectionLoop tokens stk sections budget (n + 1) i st =
            sectionLoop tokens stk sections budget n (i + 1) st := by
          simp only [sectionLoop]
          rw [if_pos hi, if_pos hblank]
        rw [hA] at hfit ⊢
        rw [hL]
        exact ih (i + 1) st hfit (by omega)
      · by_cases hcc : (decide (i + 2 < sections.length) &&
            isHeaderMatch (strip (sections.getD (i + 1) []))) = true
        · have hA : assembleFrom sections i =
              (sections.getD i [] ++ sections.getD (i + 1) [] ++ sections.getD (i + 2) []) ::
                assembleFrom sections (i + 3) := by
            rw [assembleFrom_eq, if_pos hi, if_neg hblank, if_pos hcc]
          have hL : sectionLoop tokens stk sections budget (n + 1) i st =
              sectionLoop tokens stk sections budget n
                (processSection tokens stk budget st
                  (sections.getD i [] ++ sections.getD (i + 1) [] ++ sections.getD (i + 2) [])
                  (i + 3)).2
                (processSection tokens stk budget st
                  (sections.getD i [] ++ sections.getD (i + 1) [] ++ sections.getD (i + 2) [])
                  (i + 3)).1 := by
            simp only [sectionLoop]
            rw [if_pos hi, if_neg hblank, if_pos hcc]
          rw [hA] at hfit ⊢
          obtain ⟨hsec, hrest⟩ := List.forall_mem_cons.mp hfit
          rw [hL, processSection_fits tokens stk budget st _ _ hsec]
          obtain ⟨out, hout, hflat⟩ := ih (i + 3)
            (processSection tokens stk budget st
              (sections.getD i [] ++ sections.getD (i + 1) [] ++ sections.getD (i + 2) [])
              (i + 3)).1 hrest (by omega)
          rw [processSection_fits tokens stk budget st _ _ hsec] at hout hflat
          refine ⟨out, hout, ?_⟩
          rw [hflat]
          have hj := processSection_fits_join tokens stk budget st
            (sections.getD i [] ++ sections.getD (i + 1) [] ++ sections.getD (i + 2) [])
            (i + 3) hsec
          rw [processSection_fits tokens stk budget st _ _ hsec] at hj
          rw [hj]
          simp [List.append_assoc]
        · have hA : assembleFrom sections i =
              sections.getD i [] :: assembleFrom sections (i + 1) := by
            rw [assembleFrom_eq, if_pos hi, if_neg hblank, if_neg hcc]
          have hL : sectionLoop tokens stk sections budget (n + 1) i st =
              sectionLoop tokens stk sections budget n
                (processSection tokens stk budget st (sections.getD i []) (i + 1)).2
                (processSection tokens stk budget st (sections.getD i []) (i + 1)).1 := by
            simp only [sectionLoop]
            rw [if_pos hi, if_neg hblank, if_neg hcc]
          rw [hA] at hfit ⊢
          obtain ⟨hsec, hrest⟩ := List.forall_mem_cons.mp hfit
          rw [hL, processSection_fits tokens stk budget st _ _ hsec]
          obtain ⟨out, hout, hflat⟩ := ih (i + 1)
            (processSection tokens stk budget st (sections.getD i []) (i + 1)).1 hrest (by omega)
          rw [processSection_fits tokens stk budget st _ _ hsec] at hout hflat
          refine ⟨out, hout, ?_⟩
          rw [hflat]
          have hj := processSection_fits_join tokens stk budget st
            (sections.getD i []) (i + 1) hsec
          rw [processSection_fits tokens stk budget st _ _ hsec] at hj
          rw [hj]
          simp [List.append_assoc]
    · refine ⟨finalChunks st, ?_, ?_⟩
      · simp [sectionLoop, if_neg hi]
      · rw [finalChunks_join, assembleFrom_eq, if_neg hi]
        simp

/-- C1 (amended): when the content overflows the budget but every parsed
section fits it (so no oversized splitting occurs), concatenating the
returned chunks reproduces the concatenation of the parsed sections —
the original text minus the separator pieces of the header split that
strip to whitespace, which the walk skips — rather than the original
content itself. -/
theorem chunk_join_eq_sections_join (tokens : Tok) (stk : SentTok) (content : Str)
    (budget fuel : Nat)
    (hfit : ∀ s ∈ sectionsOf content, tokens s ≤ budget)
    (hfuel : (splitHeaders content).length ≤ fuel)
    (hbig : budget < tokens content) :
    ∃ out, chunk_content tokens stk content budget fuel = some out ∧
      out.flatten = (sectionsOf content).flatten := by
  obtain ⟨o, ho, hj⟩ := sectionLoop_join tokens stk (splitHeaders content) budget fuel 0
    ⟨[], [], 0⟩ hfit (by omega)
  refine ⟨o.map Prod.fst, ?_, ?_⟩
  · show (chunk_content_sized tokens stk content budget fuel).map (List.map Prod.fst) = _
    unfold chunk_content_sized
    rw [if_neg (not_le.mpr hbig), ho]
    rfl
  · rw [hj]
    rfl

/-- Witness for C1's amended statement at a concrete input: the two sections
of `"# A\nB"` fit budget 3 and the chunks concatenate to the section text. -/
theorem chunk_join_eq_sections_join_w :
    ∃ out, chunk_content strLen sentSplit (str "# A\nB") 3 9 = some out ∧
      out.flatten = (sectionsOf (str "# A\nB")).flatten :=
  chunk_join_eq_sections_join strLen sentSplit (str "# A\nB") 3 9
    (by decide) (by decide) (by decide)

/-! ## C2: budget compliance -/

/-- A flush of a state satisfying the invariant emits a good chunk. -/
theorem flushed_good (tokens : Tok) (budget : Nat) (st : ChunkSt)
    (h : ChunkInv tokens budget st) : GoodChunk tokens budget (curText st, st.size) := by
  obtain ⟨hsum, hcur, _⟩ := h
  rcases hcur with hle | ⟨p, hp, hgp⟩
  · exact Or.inl hle
  · right
    have h1 : curText st = p.1 := by rw [curText, hp]; simp
    have h2 : st.size = p.2 := by rw [hsum, hp]; simp
    rw [h1, h2]
    exact hgp

/-- The overflow flush preserves the invariant. -/
theorem inv_overflowFlush (tokens : Tok) (budget x : Nat) (st : ChunkSt)
    (h : ChunkInv tokens budget st) : ChunkInv tokens budget (overflowFlush budget x st) := by
  unfold overflowFlush
  split
  · refine ⟨rfl, Or.inl (Nat.zero_le _), ?_⟩
    intro q hq
    rw [List.mem_append] at hq
    rcases hq with hq | hq
    · exact h.2.2 q hq
    · rw [List.mem_singleton] at hq
      subst hq
      exact flushed_good tokens budget st h
  · exact h

/-- The code-branch flush preserves the invariant. -/
theorem inv_flushChunk (tokens : Tok) (budget : Nat) (st : ChunkSt)
    (h : ChunkInv tokens budget st) : ChunkInv tokens budget (flushChunk st) := by
  unfold flushChunk
  split
  · exact h
  · refine ⟨rfl, Or.inl (Nat.zero_le _), ?_⟩
    intro q hq
    rw [List.mem_append] at hq
    rcases hq with hq | hq
    · exact h.2.2 q hq
    · rw [List.mem_singleton] at hq
      subst hq
      exact flushed_good tokens budget st h

/-- Appending one part (after the overflow flush) preserves the invariant,
provided the part fits the budget or is an oversized indivisible part. -/
theorem inv_append_part (tokens : Tok) (budget : Nat) (st : ChunkSt) (txt : Str) (x : Nat)
    (h : ChunkInv tokens budget st)
    (hcase : x ≤ budget ∨ GoodPart tokens budget (txt, x)) :
    ChunkInv tokens budget
      { overflowFlush budget x st with
          cur := (overflowFlush budget x st).cur ++ [(txt, x)],
          size := (overflowFlush budget x st).size + x } := by
  unfold overflowFlush
  by_cases hflush : (budget < st.size + x && !st.cur.isEmpty) = true
  · rw [if_pos hflush]
    refine ⟨by simp, ?_, ?_⟩
    · rcases hcase with hle | hgp
      · exact Or.inl (by simpa using hle)
      · exact Or.inr ⟨(txt, x), by simp, hgp⟩
    · intro q hq
      simp only [List.mem_append] at hq
      rcases hq with hq | hq
      · exact h.2.2 q hq
      · rw [List.mem_singleton] at hq
        subst hq
        exact flushed_good tokens budget st h
    -- no-flush case
  · rw [if_neg hflush]
    rw [Bool.and_eq_true, not_and_or] at hflush
    refine ⟨by simp [h.1], ?_, h.2.2⟩
    rcases hflush with hno | hne
    · have hle : ¬ budget < st.size + x := by simpa using hno
      refine Or.inl ?_
      show st.size + x ≤ budget
      omega
    · have hnil : st.cur = [] := by simpa using hne
      have hz : st.size = 0 := by rw [h.1, hnil]; rfl
      rcases hcase with hle | hgp
      · refine Or.inl ?_
        show st.size + x ≤ budget
        omega
      · refine Or.inr ⟨(txt, x), ?_, hgp⟩
        show st.cur ++ [(txt, x)] = [(txt, x)]
        rw [hnil]
        rfl

/-- The sentence step preserves the invariant. -/
theorem inv_processSent (tokens : Tok) (budget : Nat) (st : ChunkSt) (sent : Str)
    (h : ChunkInv tokens budget st) :
    ChunkInv tokens budget (processSent tokens budget st sent) := by
  show ChunkInv tokens budget
    { overflowFlush budget (tokens sent) st with
        cur := (overflowFlush budget (tokens sent) st).cur ++ [(sent ++ [' '], tokens sent)],
        size := (overflowFlush budget (tokens sent) st).size + tokens sent }
  refine inv_append_part tokens budget st (sent ++ [' ']) (tokens sent) h ?_
  by_cases hx : tokens sent ≤ budget
  · exact Or.inl hx
  · exact Or.inr ⟨by omega, Or.inl ⟨sent, rfl, rfl⟩⟩

/-- The sentence fold preserves the invariant. -/
theorem inv_foldl_sent (tokens : Tok) (budget : Nat) (l : List Str) :
    ∀ st, ChunkInv tokens budget st →
      ChunkInv tokens budget (l.foldl (processSent tokens budget) st) := by
  induction l with
  | nil => intro st h; exact h
  | cons s rest ih => intro st h; exact ih _ (inv_processSent tokens budget st s h)

/-- The paragraph step preserves the invariant. -/
theorem inv_processPara (tokens : Tok) (stk : SentTok) (budget : Nat) (blocks : List Str)
    (st : ChunkSt) (para0 : Str) (h : ChunkInv tokens budget st) :
    ChunkInv tokens budget (processPara tokens stk budget blocks st para0) := by
  unfold processPara
  by_cases hp : budget < tokens (restoreBlocks blocks para0)
  · rw [if_pos hp]
    by_cases hcb : containsB fenceStr (restoreBlocks blocks para0) = true
    · rw [if_pos hcb]
      have h2 := inv_flushChunk tokens budget _
        (inv_overflowFlush tokens budget (tokens (restoreBlocks blocks para0)) st h)
      refine ⟨rfl, Or.inl (Nat.zero_le _), ?_⟩
      intro q hq
      rw [List.mem_append] at hq
      rcases hq with hq | hq
      · exact h2.2.2 q hq
      · rw [List.mem_singleton] at hq
        subst hq
        exact Or.inr ⟨hp, Or.inr ⟨hcb, rfl⟩⟩
    · rw [if_neg hcb]
      exact inv_foldl_sent tokens budget _ _
        (inv_overflowFlush tokens budget (tokens (restoreBlocks blocks para0)) st h)
  · rw [if_neg hp]
    exact inv_append_part tokens budget st (restoreBlocks blocks para0 ++ str "\n\n")
      (tokens (restoreBlocks blocks para0)) h (Or.inl (not_lt.mp hp))

/-- The paragraph fold preserves the invariant. -/
theorem inv_foldl_para (tokens : Tok) (stk : SentTok) (budget : Nat) (blocks : List Str)
    (l : List Str) :
    ∀ st, ChunkInv tokens budget st →
      ChunkInv tokens budget (l.foldl (processPara tokens stk budget blocks) st) := by
  induction l with
  | nil => intro st h; exact h
  | cons p rest ih => intro st h; exact ih _ (inv_processPara tokens stk budget blocks st p h)

/-- The section step preserves the invariant. -/
theorem inv_processSection (tokens : Tok) (stk : SentTok) (budget : Nat)
    (st : ChunkSt) (sec : Str) (iNext : Nat) (h : ChunkInv tokens budget st) :
    ChunkInv tokens budget (processSection tokens stk budget st sec iNext).1 := by
  unfold processSection
  by_cases hs : budget < tokens sec
  · rw [if_pos hs]
    exact inv_foldl_para tokens stk budget _ _ _
      (inv_overflowFlush tokens budget (tokens sec) st h)
  · rw [if_neg hs]
    exact inv_append_part tokens budget st sec (tokens sec) h (Or.inl (not_lt.mp hs))

/-- The final flush only emits good chunks. -/
theorem finalChunks_good (tokens : Tok) (budget : Nat) (st : ChunkSt)
    (h : ChunkInv tokens budget st) :
    ∀ q ∈ finalChunks st, GoodChunk tokens budget q := by
  unfold finalChunks
  split
  · exact h.2.2
  · intro q hq
    rw [List.mem_append] at hq
    rcases hq with hq | hq
    · exact h.2.2 q hq
    · rw [List.mem_singleton] at hq
      subst hq
      exact flushed_good tokens budget st h

/-- Whatever list of chunks the walk returns, every chunk is good. -/
theorem sectionLoop_good (tokens : Tok) (stk : SentTok) (sections : List Str) (budget : Nat) :
    ∀ fuel i st out, ChunkInv tokens budget st →
      sectionLoop tokens stk sections budget fuel i st = some out →
      ∀ q ∈ out, GoodChunk tokens budget q := by
  intro fuel
  induction fuel with
  | zero =>
    intro i st out hinv hout
    simp only [sectionLoop] at hout
    split at hout
    · exact absurd hout (by simp)
    · injection hout with hout
      subst hout
      exact finalChunks_good tokens budget st hinv
  | succ n ih =>
    intro i st out hinv hout
    simp only [sectionLoop] at hout
    split at hout
    · split at hout
      · exact ih (i + 1) st out hinv hout
      · split at hout
        · exact ih _ _ out (inv_processSection tokens stk budget st _ _ hinv) hout
        · exact ih _ _ out (inv_processSection tokens stk budget st _ _ hinv) hout
    · injection hout with hout
      subst hout
      exact finalChunks_good tokens budget st hinv

/-- C2 (amended): every chunk's recorded size — the sum of the token counts
of the pieces accumulated into it, as the code tracks in `current_size`,
which omits the `"\n\n"` and `" "` separators re-appended when joining and
is not the re-measured count of the joined chunk — is at most the budget,
except a chunk wrapping a single oversized sentence (stored with one
trailing space, its recorded size the sentence's own count) or a single
oversized code-bearing paragraph. -/
theorem chunk_recorded_size_bounded (tokens : Tok) (stk : SentTok) (content : Str)
    (budget fuel : Nat) (out : List (Str × Nat))
    (h : chunk_content_sized tokens stk content budget fuel = some out) :
    ∀ q ∈ out,
      q.2 ≤ budget ∨
      (budget < q.2 ∧
        ((∃ t, q.1 = t ++ [' '] ∧ q.2 = tokens t) ∨
         (containsB fenceStr q.1 = true ∧ q.2 = tokens q.1))) := by
  unfold chunk_content_sized at h
  by_cases hfast : tokens content ≤ budget
  · rw [if_pos hfast] at h
    injection h with h
    subst h
    intro q hq
    rw [List.mem_singleton] at hq
    subst hq
    exact Or.inl hfast
  · rw [if_neg hfast] at h
    exact sectionLoop_good tokens stk (splitHeaders content) budget fuel 0 ⟨[], [], 0⟩ out
      ⟨rfl, Or.inl (Nat.zero_le _), by intro q hq; cases hq⟩ h

/-- Witness for C2's amended statement: the fast-path chunk of `"ab"` with
budget 5 has recorded size within the budget. -/
theorem chunk_recorded_size_bounded_w :
    (str "ab", 2).2 ≤ 5 ∨
    (5 < (str "ab", 2).2 ∧
      ((∃ t, (str "ab", 2).1 = t ++ [' '] ∧ (str "ab", 2).2 = strLen t) ∨
       (containsB fenceStr (str "ab", 2).1 = true ∧ (str "ab", 2).2 = strLen (str "ab", 2).1))) :=
  chunk_recorded_size_bounded strLen sentSplit (str "ab") 5 1 [(str "ab", 2)]
    (by decide) (str "ab", 2) (by decide)

/-- C2 counterexample: on `"One. Two."` with budget 8 the code accumulates
both sentences (recorded sum 8 ≤ 8) but re-appends the inter-sentence
spaces, so the emitted chunk measures 10 > 8 tokens while being neither a
single oversized sentence (both sentences measure 4 ≤ 8) nor code-bearing. -/
theorem chunk_budget_cex :
    chunk_content strLen sentSplit (str "One. Two.") 8 3 = some [str "One. Two. "]
    ∧ 8 < strLen (str "One. Two. ")
    ∧ sentSplit (str "One. Two.") = [str "One.", str "Two."]
    ∧ (∀ t ∈ sentSplit (str "One. Two."), strLen t ≤ 8)
    ∧ containsB fenceStr (str "One. Two. ") = false := by decide

/-! ## C3: code-block integrity -/

/-- `isPrefixOf` characterised by an explicit decomposition. -/
theorem isPrefixOf_eq_true_iff :
    ∀ (n h : Str), n.isPrefixOf h = true ↔ ∃ b, h = n ++ b := by
  intro n
  induction n with
  | nil =>
    intro h
    simp [List.isPrefixOf]
  | cons c n' ih =>
    intro h
    cases h with
    | nil => simp [List.isPrefixOf]
    | cons d h' =>
      simp only [List.isPrefixOf, Bool.and_eq_true, beq_iff_eq, ih h']
      constructor
      · rintro ⟨rfl, b, rfl⟩
        exact ⟨b, rfl⟩
      · rintro ⟨b, hb⟩
        injection hb with h1 h2
        exact ⟨h1.symm, b, h2⟩

/-- `containsB` characterised as contiguous occurrence. -/
theorem containsB_iff (n : Str) : ∀ h : Str, containsB n h = true ↔ Infx n h := by
  intro h
  induction h with
  | nil =>
    simp only [containsB, List.isEmpty_iff, Infx]
    constructor
    · rintro rfl
      exact ⟨[], [], rfl⟩
    · rintro ⟨a, b, hab⟩
      have := hab.symm
      simp only [List.append_eq_nil] at this
      exact this.1.2
  | cons c t ih =>
    simp only [containsB, Bool.or_eq_true, isPrefixOf_eq_true_iff, ih, Infx]
    constructor
    · rintro (⟨b, hb⟩ | ⟨a, b, hab⟩)
      · exact ⟨[], b, by rw [hb]; rfl⟩
      · exact ⟨c :: a, b, by rw [hab]; simp⟩
    · rintro ⟨a, b, hab⟩
      cases a with
      | nil => exact Or.inl ⟨b, by simpa using hab⟩
      | cons d a' =>
        injection hab with h1 h2
        exact Or.inr ⟨a', b, h2⟩

/-- Occurrence is transitive along decomposition. -/
theorem Infx.trans {n p t : Str} (h1 : Infx n p) (h2 : Infx p t) : Infx n t := by
  obtain ⟨a, b, rfl⟩ := h1
  obtain ⟨x, y, rfl⟩ := h2
  exact ⟨x ++ a, b ++ y, by simp [List.append_assoc]⟩

/-- Every piece of the blank-line paragraph split occurs contiguously in the
split text. -/
theorem splitParasAux_infx :
    ∀ fuel acc s p, p ∈ splitParasAux fuel acc s → Infx p (acc.reverse ++ s) := by
  intro fuel acc s
  induction fuel, acc, s using splitParasAux.induct with
  | case1 acc s =>
    intro p hp
    rw [show splitParasAux 0 acc s = [acc.reverse ++ s] from rfl, List.mem_singleton] at hp
    subst hp
    exact ⟨[], [], by simp⟩
  | case2 n acc =>
    intro p hp
    rw [show splitParasAux (n + 1) acc [] = [acc.reverse] from rfl, List.mem_singleton] at hp
    subst hp
    exact ⟨[], [], by simp⟩
  | case3 n acc rest ih =>
    intro p hp
    rw [splitParasAux.eq_3, List.mem_cons] at hp
    rcases hp with hp | hp
    · subst hp
      exact ⟨[], '\n' :: '\n' :: rest, by simp⟩
    · have h1 := ih p hp
      have h2 : Infx (rest.dropWhile (· == '\n')) (acc.reverse ++ '\n' :: '\n' :: rest) :=
        ⟨acc.reverse ++ '\n' :: '\n' :: rest.takeWhile (· == '\n'), [], by
          simp [List.takeWhile_append_dropWhile]⟩
      exact Infx.trans (by simpa using h1) h2
  | case4 n acc c rest hside ih =>
    intro p hp
    rw [splitParasAux.eq_4 acc n c rest hside] at hp
    have heq : (c :: acc).reverse ++ rest = acc.reverse ++ c :: rest := by simp
    exact heq ▸ ih p hp

/-- C3 (amended): the chunker's code-block protection exists only at the
paragraph-splitting stage inside an oversized section.  Every paragraph
piece is a contiguous part of the placeholder text, so when the extraction
has consumed every fence marker (the placeholder text contains no ```` ``` ````),
no paragraph boundary can fall inside a fenced block — no piece even
contains a fence character sequence.  At the section-splitting stage there
is no protection at all (see the counterexample). -/
theorem para_split_respects_fences (sec p : Str)
    (hp : p ∈ splitParas (extractCodeBlocks sec).1)
    (hclean : containsB fenceStr (extractCodeBlocks sec).1 = false) :
    Infx p (extractCodeBlocks sec).1 ∧ containsB fenceStr p = false := by
  have hinf : Infx p (extractCodeBlocks sec).1 := by
    have := splitParasAux_infx (extractCodeBlocks sec).1.length [] (extractCodeBlocks sec).1 p hp
    simpa using this
  refine ⟨hinf, ?_⟩
  by_contra hcon
  rw [Bool.not_eq_false, containsB_iff] at hcon
  have : containsB fenceStr (extractCodeBlocks sec).1 = true := by
    rw [containsB_iff]
    exact Infx.trans hcon hinf
  rw [this] at hclean
  cases hclean

/-- Witness for C3's amended statement: in `"x\n\n```a```"` the block is
extracted, the placeholder text splits into two paragraphs, and the piece
`"x"` lies inside the placeholder text and carries no fence. -/
theorem para_split_respects_fences_w :
    Infx (str "x") (extractCodeBlocks (str "x\n\n```a```")).1
    ∧ containsB fenceStr (str "x") = false :=
  para_split_respects_fences (str "x\n\n```a```") (str "x") (by decide) (by decide)

/-- C3 counterexample: in `"A\n```\n# H\n```\nB"` the fenced block contains a
header-like line, the header split cuts straight through it, and with
budget 5 the three sections become three chunks none of which contains the
block intact — a chunk boundary falls inside the fenced code block. -/
theorem code_block_split_cex :
    chunk_content strLen sentSplit (str "A\n```\n# H\n```\nB") 5 9 =
      some [str "A\n```", str "# H", str "```\nB"]
    ∧ (extractCodeBlocks (str "A\n```\n# H\n```\nB")).2 = [str "```\n# H\n```"]
    ∧ ([str "A\n```", str "# H", str "```\nB"].all
        (fun ch => !containsB (str "```\n# H\n```") ch)) = true := by decide

/-! ## C6: complex-HTML detection -/

/-- Does an event open a tag outside `HTML_MARKDOWN_CONVERTIBLE_TAGS`? -/
def outsideConvertible : HEvent → Bool
  | .startTag tag _ => !HTML_MARKDOWN_CONVERTIBLE_TAGS.contains tag
  | _ => false

/-- The start-tag dispatch never touches the complex flag. -/
theorem startEmit_flag (st : ConvState) (tag : Str) (attrs : List (Str × Str)) :
    (startEmit st tag attrs).complex_html_detected = st.complex_html_detected := by
  unfold startEmit
  simp only [apply_ite ConvState.complex_html_detected, ite_self]

/-- `handle_starttag` sets the complex flag exactly for tags outside the
allow-list constant. -/
theorem starttag_flag (st : ConvState) (tag : Str) (attrs : List (Str × Str)) :
    (handle_starttag st tag attrs).complex_html_detected =
      (st.complex_html_detected || !HTML_MARKDOWN_CONVERTIBLE_TAGS.contains tag) := by
  unfold handle_starttag
  rw [startEmit_flag]
  cases hc : HTML_MARKDOWN_CONVERTIBLE_TAGS.contains tag <;> simp [hc]

/-- The end-tag dispatch never touches the complex flag. -/
theorem endEmit_flag (st : ConvState) (tag : Str) :
    (endEmit st tag).complex_html_detected = st.complex_html_detected := by
  unfold endEmit
  simp only [apply_ite ConvState.complex_html_detected, ite_self]

/-- The stack pop never touches the complex flag. -/
theorem popTag_flag (st : ConvState) (tag : Str) :
    (popTag st tag).complex_html_detected = st.complex_html_detected := by
  unfold popTag
  rcases hst : st.inside_tags with _ | ⟨t, rest⟩
  · rfl
  · by_cases h : (t == tag) = true <;> simp [h]

/-- `handle_endtag` never touches the complex flag. -/
theorem endtag_flag (st : ConvState) (tag : Str) :
    (handle_endtag st tag).complex_html_detected = st.complex_html_detected := by
  unfold handle_endtag
  rw [endEmit_flag, popTag_flag]

/-- `handle_data` never touches the complex flag. -/
theorem data_flag (st : ConvState) (d : Str) :
    (handle_data st d).complex_html_detected = st.complex_html_detected := by
  unfold handle_data
  split_ifs <;> rfl

/-- Folding the handlers accumulates the complex flag as a disjunction over
the start-tag events. -/
theorem fold_flag :
    ∀ (evs : List HEvent) (st : ConvState),
      (evs.foldl stepEvent st).complex_html_detected =
        (st.complex_html_detected || evs.any outsideConvertible) := by
  intro evs
  induction evs with
  | nil => intro st; simp
  | cons e rest ih =>
    intro st
    rw [List.foldl_cons, ih, List.any_cons]
    cases e with
    | startTag tag attrs =>
      simp [stepEvent, starttag_flag, outsideConvertible, Bool.or_assoc]
    | endTag tag => simp [stepEvent, endtag_flag, outsideConvertible]
    | textData d => simp [stepEvent, data_flag, outsideConvertible]

/-- C6 (amended): `convert` reports `complex = true` exactly when some
start-tag event carries a tag outside `HTML_MARKDOWN_CONVERTIBLE_TAGS` —
the constant actually consulted, which omits `code`, `pre` and `br` from
§4.2's table and additionally holds `td` and `tbody`. -/
theorem complex_iff_outside_convertible (evs : List HEvent) :
    (convertEvents evs).2 = true ↔
      ∃ tag attrs, HEvent.startTag tag attrs ∈ evs ∧
        HTML_MARKDOWN_CONVERTIBLE_TAGS.contains tag = false := by
  have h2 : (convertEvents evs).2 =
      (evs.foldl stepEvent { initState with result := [], complex_html_detected := false
        }).complex_html_detected := rfl
  rw [h2, fold_flag]
  simp only [Bool.false_or, List.any_eq_true]
  constructor
  · rintro ⟨e, he, houtside⟩
    cases e with
    | startTag tag attrs =>
      refine ⟨tag, attrs, he, ?_⟩
      simpa [outsideConvertible] using houtside
    | endTag tag => simp [outsideConvertible] at houtside
    | textData d => simp [outsideConvertible] at houtside
  · rintro ⟨tag, attrs, he, hout⟩
    refine ⟨.startTag tag attrs, he, ?_⟩
    simp only [outsideConvertible, hout]
    rfl

/-- C6 counterexample: `<code>x</code>` uses only tags from §4.2's table,
yet `convert` reports `complex = true` (and appends the complexity note),
because `code` is missing from `HTML_MARKDOWN_CONVERTIBLE_TAGS`. -/
theorem complex_allowlist_cex :
    (convertEvents codeOnlyEvents).2 = true
    ∧ (codeOnlyEvents.all fun e =>
        match e with
        | HEvent.startTag t _ => spec42Tags.contains t
        | HEvent.endTag t => spec42Tags.contains t
        | HEvent.textData _ => true) = true
    ∧ str "code" ∈ spec42Tags
    ∧ str "code" ∉ HTML_MARKDOWN_CONVERTIBLE_TAGS := by decide

/-! ## C7: text routing -/

/-- C7 (amended): a text event goes to the list-item buffer exactly when the
list flag is set and the *innermost open* tag is `li` (not merely when an
`li` is open somewhere on the stack — see the counterexample); otherwise,
inside a table row with non-blank text the trimmed text becomes a cell;
otherwise the text goes straight to the output stream. -/
theorem handle_data_cases (st : ConvState) (d : Str) :
    (st.in_list = true → st.inside_tags.head? = some (str "li") →
      handle_data st d = { st with buffer := st.buffer ++ [d] })
    ∧ ((st.in_list = false ∨ st.inside_tags.head? ≠ some (str "li")) →
      st.in_table_row = true → (strip d).isEmpty = false →
      handle_data st d = { st with current_row := st.current_row ++ [strip d] })
    ∧ ((st.in_list = false ∨ st.inside_tags.head? ≠ some (str "li")) →
      (st.in_table_row = false ∨ (strip d).isEmpty = true) →
      handle_data st d = { st with result := st.result ++ [d] }) := by
  refine ⟨?_, ?_, ?_⟩
  · intro hl hh
    unfold handle_data
    rw [if_pos (by simp [hl, hh])]
  · intro hno hrow hnb
    unfold handle_data
    rw [if_neg ?_, if_pos (by simp [hrow, hnb])]
    rcases hno with hno | hno <;> simp [hno]
  · intro hno hcase
    unfold handle_data
    rw [if_neg ?_, if_neg ?_]
    · rcases hcase with hc | hc <;> simp [hc]
    · rcases hno with hno | hno <;> simp [hno]

/-- Witness for C7's amended statement: with the innermost open tag `li`,
text is buffered into the list item. -/
theorem handle_data_cases_w :
    handle_data liState (str "x") = { liState with buffer := liState.buffer ++ [str "x"] } :=
  (handle_data_cases liState (str "x")).1 (by decide) (by decide)

/-- C7 counterexample: in `<ul><li><b>x` the text event fires while an `li`
is open (it is on the stack and the list flag is set), yet the text is
routed to the main output stream and the item buffer stays empty, because
the innermost open tag is `b`. -/
theorem handle_data_li_cex :
    (nestedLiEvents.foldl stepEvent initState).buffer = []
    ∧ (nestedLiEvents.foldl stepEvent initState).result = [str "**", str "x"]
    ∧ str "li" ∈ (nestedLiPre.foldl stepEvent initState).inside_tags
    ∧ (nestedLiPre.foldl stepEvent initState).in_list = true := by decide

/-! ## C8: the error wrapper -/

/-- C8: `convert_html_to_markdown` never lets a conversion error escape:
a raised error is caught and replaced by the fallback note, with
`complex = true`. -/
theorem convert_wrapper_catches_errors (e : Str) :
    convert_html_to_markdown (Except.error e) = (conversionError e, true)
    ∧ (convert_html_to_markdown (Except.error e)).2 = true := ⟨rfl, rfl⟩

/-! ## C9: the metadata wrapper -/

/-- C9 (amended): with the include-metadata flag set and a non-empty
formatted metadata block, `smart_chunk_notebook` chunks at the effective
budget `max(budget − metadata_tokens − 50, budget / 2)` — reserving the
metadata cost *plus 50 separation tokens*, never dropping below half the
budget — and prepends the metadata (with the `---` separator) to every
chunk; with the flag unset it chunks at the full budget and prepends the
metadata only to the first chunk. -/
theorem smart_chunk_effective_budget (tokens : Tok) (stk : SentTok)
    (content md : Str) (cs fuel : Nat) :
    (cs / 2 ≤ max (cs - tokens md - 50) (cs / 2))
    ∧ (md ≠ [] →
        smart_chunk_notebook tokens stk content md cs true fuel =
          (chunk_content tokens stk content (max (cs - tokens md - 50) (cs / 2)) fuel).map
            (List.map fun c => md ++ sepStr ++ c))
    ∧ (∀ c0 rest, md ≠ [] →
        chunk_content tokens stk content cs fuel = some (c0 :: rest) →
        smart_chunk_notebook tokens stk content md cs false fuel =
          some ((md ++ sepStr ++ c0) :: rest)) := by
  have hemp : ∀ (l : Str), l ≠ [] → l.isEmpty = false := by
    intro l hl
    cases l
    · exact absurd rfl hl
    · rfl
  refine ⟨le_max_right _ _, ?_, ?_⟩
  · intro hmd
    unfold smart_chunk_notebook
    cases hcc : chunk_content tokens stk content (max (cs - tokens md - 50) (cs / 2)) fuel with
    | none => simp [hcc]
    | some cs' => simp [hcc, hemp md hmd]
  · intro c0 rest hmd hcc
    unfold smart_chunk_notebook
    simp [hcc, hemp md hmd]

/-- Witness for C9's amended statement: with the flag unset, the single
fast-path chunk of `"ab"` gets the metadata block prepended once. -/
theorem smart_chunk_effective_budget_w :
    smart_chunk_notebook strLen sentSplit (str "ab") (str "##") 12 false 5 =
      some ((str "##" ++ sepStr ++ str "ab") :: []) :=
  (smart_chunk_effective_budget strLen sentSplit (str "ab") (str "##") 12 5).2.2
    (str "ab") [] (by decide) (by decide)

/-- C9 counterexample: with budget 12 and a 2-token metadata block, the
claimed reservation `max(12 − 2, 12 / 2) = 10` would keep the 9-token
content whole (one chunk), but the implementation reserves 50 extra tokens,
chunks at `max(12 − 2 − 50, 12 / 2) = 6`, and returns two chunks. -/
theorem smart_chunk_reserve_cex :
    (smart_chunk_notebook strLen sentSplit (str "aaaa\n\nbbb") (str "##") 12 true 5).map
        List.length = some 2
    ∧ (smart_chunk_claimed strLen sentSplit (str "aaaa\n\nbbb") (str "##") 12 true 5).map
        List.length = some 1 := by decide

/-! ## C10: table rendering -/

/-- C10: in the pipe table rendered on `</table>`, every data row appears as
a pipe row over `row ++ [""] * (len(headers) - len(row))`: rows shorter than
the header are right-padded with empty cells up to the header's width, rows
longer than the header keep every one of their cells (the row is a prefix of
the padded row — nothing is truncated) and yield a row wider than the
header. -/
theorem table_row_padding (hd : List Str) (tl : List (List Str)) (r : List Str)
    (hr : r ∈ tl) (hany : ((hd :: tl).any fun q => !q.isEmpty) = true) :
    pipeRow (r ++ List.replicate (hd.length - r.length) []) ∈ tableMd (hd :: tl)
    ∧ r <+: r ++ List.replicate (hd.length - r.length) []
    ∧ (r.length ≤ hd.length →
        (r ++ List.replicate (hd.length - r.length) []).length = hd.length)
    ∧ (hd.length ≤ r.length →
        r ++ List.replicate (hd.length - r.length) [] = r) := by
  refine ⟨?_, List.prefix_append r _, ?_, ?_⟩
  · have hdef : tableMd (hd :: tl) =
        if ((hd :: tl).any fun q => !q.isEmpty) = true then
          pipeRow hd :: pipeRow (List.replicate hd.length (str "---")) ::
            tl.map (fun row => pipeRow (row ++ List.replicate (hd.length - row.length) []))
        else [] := rfl
    rw [hdef, if_pos hany]
    exact List.mem_cons_of_mem _ (List.mem_cons_of_mem _ (List.mem_map_of_mem _ hr))
  · intro hle
    simp [List.length_append, List.length_replicate]
    omega
  · intro hge
    have : hd.length - r.length = 0 := by omega
    rw [this]
    simp

/-- Witness for C10 at the concrete table with header `A | B`, a short data
row `1` and a long data row `1 | 2 | 3`. -/
theorem table_row_padding_w :
    (pipeRow ([str "1"] ++ List.replicate ([str "A", str "B"].length - [str "1"].length) []) ∈
      tableMd [[str "A", str "B"], [str "1"]])
    ∧ [str "1"] <+:
        [str "1"] ++ List.replicate ([str "A", str "B"].length - [str "1"].length) []
    ∧ ([str "1"].length ≤ [str "A", str "B"].length →
        ([str "1"] ++ List.replicate ([str "A", str "B"].length - [str "1"].length) []).length =
          [str "A", str "B"].length)
    ∧ ([str "A", str "B"].length ≤ [str "1"].length →
        [str "1"] ++ List.replicate ([str "A", str "B"].length - [str "1"].length) [] =
          [str "1"]) :=
  table_row_padding [str "A", str "B"] [[str "1"]] [str "1"] (by decide) (by decide)
